import Mathlib

/-!
Verification of the delay-generation module (`src/delay.rs`) of the retry
crate: five delay generators (Exponential, Fibonacci, Fixed, NoDelay, Range)
and the `jitter` function.

Modelling conventions:
* Rust `u64`/`u32` values are modelled as `Nat`; where the source performs
  machine arithmetic whose overflow matters, the release-profile semantics
  (two's-complement wrapping) is written explicitly as `% 2 ^ 64`, and the
  debug-profile semantics (overflow panics) is modelled by a separate
  `..._checked` function returning `none` on overflow.
* `std::time::Duration` is modelled by the `Duration` structure below
  (seconds and subsecond nanoseconds), with the same normalisation as
  `Duration::new`.
* A Rust `Iterator::next` method `fn next(&mut self) -> Option<Duration>`
  becomes a function `State → Option (Duration × State)` returning the
  produced value together with the mutated state.
* The thread-local random source (`ThreadRng`) consumed by `Range` is
  modelled as a list of pending raw `u64` draws; the `Closed01<f64>` draw
  consumed by `jitter` is modelled as a rational parameter `j ∈ [0, 1]`
  (`f64` arithmetic idealised as exact rational arithmetic).
* A Rust panic (the `assert!` inside rand 0.3's `Range::new`, or an
  overflow with debug assertions on) is modelled as `none`.
-/

/-- The modulus of Rust `u64` arithmetic. -/
def U64_MOD : ℕ := 2 ^ 64

/-- `u64::MAX`. -/
def U64_MAX : ℕ := 2 ^ 64 - 1

/-- Model of `std::time::Duration`: a non-negative span of time stored as
whole seconds plus subsecond nanoseconds (in the real type `nanos < 10^9`
holds by construction; here it is carried as a hypothesis where needed). -/
structure Duration where
  secs : ℕ
  nanos : ℕ
deriving DecidableEq

/-- `Duration::new(secs, nanos)`: normalises nanoseconds above `10^9` into
seconds, exactly as the standard library constructor does. -/
def Duration.new (secs nanos : ℕ) : Duration :=
  { secs := secs + nanos / 1000000000, nanos := nanos % 1000000000 }

/-- `Duration::from_millis(millis)`. -/
def Duration.from_millis (millis : ℕ) : Duration :=
  { secs := millis / 1000, nanos := millis % 1000 * 1000000 }

/-- `Duration::default()`: the zero duration. -/
def Duration.default : Duration := { secs := 0, nanos := 0 }

/-- `Duration::as_secs`. -/
def Duration.as_secs (d : Duration) : ℕ := d.secs

/-- `Duration::subsec_nanos`. -/
def Duration.subsec_nanos (d : Duration) : ℕ := d.nanos

/-- Total length of a duration in nanoseconds, used to compare durations. -/
def Duration.toNanos (d : Duration) : ℕ := d.secs * 1000000000 + d.nanos

/-! ## Exponential -/

/-- The `Exponential` delay generator: `base` (multiplier) and `current`
(next delay in milliseconds), both `u64` in the source. -/
structure Exponential where
  base : ℕ
  current : ℕ
deriving DecidableEq

/-- `Exponential::from_millis(base)`: the same value seeds both fields. -/
def Exponential.from_millis (base : ℕ) : Exponential :=
  { base := base, current := base }

/-- The state mutation performed by one pull:
`self.current = self.current * self.base;` under release-profile
(wrapping) `u64` semantics. -/
def Exponential.step (s : Exponential) : Exponential :=
  { base := s.base, current := s.current * s.base % U64_MOD }

/-- `<Exponential as Iterator>::next`: returns the current delay as a
millisecond duration, then multiplies the stored `current` by `base`
(wrapping semantics). -/
def Exponential.next (s : Exponential) : Option (Duration × Exponential) :=
  some (Duration.from_millis s.current, s.step)

/-- `<Exponential as Iterator>::next` under debug-profile semantics: the
multiplication `self.current * self.base` panics (here: `none`) when the
product overflows `u64`. -/
def Exponential.next_checked (s : Exponential) : Option (Duration × Exponential) :=
  if s.current * s.base < U64_MOD then
    some (Duration.from_millis s.current, { base := s.base, current := s.current * s.base })
  else
    none

/-- The state reached after `n` pulls. -/
def Exponential.state_after (s : Exponential) : ℕ → Exponential
  | 0 => s
  | n + 1 => (s.state_after n).step

/-- The value produced by pull number `n + 1` (0-indexed pulls). -/
def Exponential.pull (s : Exponential) (n : ℕ) : Duration :=
  Duration.from_millis (s.state_after n).current

theorem Exponential.base_state_after (s : Exponential) (n : ℕ) :
    (s.state_after n).base = s.base := by
  induction n with
  | zero => rfl
  | succ n ih => simpa [Exponential.state_after, Exponential.step] using ih

theorem Exponential.current_state_after (b n : ℕ) (h : b ^ (n + 1) < U64_MOD) :
    ((Exponential.from_millis b).state_after n).current = b ^ (n + 1) := by
  induction n with
  | zero => simp [Exponential.state_after, Exponential.from_millis]
  | succ n ih =>
    have hle : b ^ (n + 1) ≤ b ^ (n + 2) ∨ b = 0 := by
      rcases Nat.eq_zero_or_pos b with hb | hb
      · exact Or.inr hb
      · exact Or.inl (Nat.pow_le_pow_right hb (by omega))
    have hprev : b ^ (n + 1) < U64_MOD := by
      rcases hle with hle | hb
      · exact lt_of_le_of_lt hle h
      · subst hb
        simp [U64_MOD]
    have ihc := ih hprev
    have hbase : ((Exponential.from_millis b).state_after n).base = b :=
      Exponential.base_state_after (Exponential.from_millis b) n
    simp only [Exponential.state_after, Exponential.step, ihc, hbase]
    have hpow : b ^ (n + 1) * b = b ^ (n + 1 + 1) := by ring
    rw [hpow, Nat.mod_eq_of_lt h]

/-! ## Fibonacci -/

/-- The `Fibonacci` delay generator: `curr` and `next` delays in
milliseconds, both `u64` in the source. -/
structure Fibonacci where
  curr : ℕ
  next : ℕ
deriving DecidableEq

/-- `Fibonacci::from_millis(millis)`: the seed initialises both fields. -/
def Fibonacci.from_millis (millis : ℕ) : Fibonacci :=
  { curr := millis, next := millis }

/-- The state mutation performed by one pull:
`let next_next = self.curr + self.next; self.curr = self.next;
self.next = next_next;` under release-profile (wrapping) `u64` semantics. -/
def Fibonacci.step (s : Fibonacci) : Fibonacci :=
  { curr := s.next, next := (s.curr + s.next) % U64_MOD }

/-- `<Fibonacci as Iterator>::next`: returns `curr` as a millisecond
duration and advances `(curr, next)` to `(next, curr + next)` (wrapping
semantics). Named `iter_next` because the struct already has a field
called `next`. -/
def Fibonacci.iter_next (s : Fibonacci) : Option (Duration × Fibonacci) :=
  some (Duration.from_millis s.curr, s.step)

/-- `<Fibonacci as Iterator>::next` under debug-profile semantics: the
addition `self.curr + self.next` panics (here: `none`) when the sum
overflows `u64`. -/
def Fibonacci.iter_next_checked (s : Fibonacci) : Option (Duration × Fibonacci) :=
  if s.curr + s.next < U64_MOD then
    some (Duration.from_millis s.curr, { curr := s.next, next := s.curr + s.next })
  else
    none

/-- The state reached after `n` pulls. -/
def Fibonacci.state_after (s : Fibonacci) : ℕ → Fibonacci
  | 0 => s
  | n + 1 => (s.state_after n).step

/-- The value produced by pull number `n + 1` (0-indexed pulls). -/
def Fibonacci.pull (s : Fibonacci) (n : ℕ) : Duration :=
  Duration.from_millis (s.state_after n).curr

theorem Fibonacci.state_after_from_millis (m n : ℕ)
    (h : Nat.fib (n + 2) * m < U64_MOD) :
    (Fibonacci.from_millis m).state_after n =
      { curr := Nat.fib (n + 1) * m, next := Nat.fib (n + 2) * m } := by
  induction n with
  | zero =>
    have h2 : Nat.fib 2 = 1 := rfl
    simp [Fibonacci.state_after, Fibonacci.from_millis, Nat.fib_one, h2]
  | succ n ih =>
    have hmono : Nat.fib (n + 2) * m ≤ Nat.fib (n + 3) * m :=
      Nat.mul_le_mul_right m (Nat.fib_le_fib_succ (n := n + 2))
    have hprev : Nat.fib (n + 2) * m < U64_MOD := lt_of_le_of_lt hmono h
    have ihs := ih hprev
    simp only [Fibonacci.state_after, ihs, Fibonacci.step]
    have hsum : Nat.fib (n + 1) * m + Nat.fib (n + 2) * m = Nat.fib (n + 3) * m := by
      rw [← Nat.add_mul, ← Nat.fib_add_two]
    rw [hsum, Nat.mod_eq_of_lt h]

/-! ## Fixed -/

/-- The `Fixed` delay generator: a stored duration. -/
structure Fixed where
  duration : Duration
deriving DecidableEq

/-- `Fixed::from_millis(millis)`. -/
def Fixed.from_millis (millis : ℕ) : Fixed :=
  { duration := Duration.from_millis millis }

/-- `<Fixed as Iterator>::next`: returns the stored duration without
touching the state. -/
def Fixed.next (s : Fixed) : Option (Duration × Fixed) :=
  some (s.duration, s)

/-- The state reached after `n` pulls (the source mutates nothing, so this
is the identity; kept in the same shape as the other generators). -/
def Fixed.state_after (s : Fixed) : ℕ → Fixed
  | 0 => s
  | n + 1 => ((s.state_after n).next.map Prod.snd).getD (s.state_after n)

/-- The value produced by pull number `n + 1` (0-indexed pulls). -/
def Fixed.pull (s : Fixed) (n : ℕ) : Duration :=
  (s.state_after n).duration

theorem Fixed.state_after_eq (s : Fixed) (n : ℕ) : s.state_after n = s := by
  induction n with
  | zero => rfl
  | succ n ih => simp [Fixed.state_after, Fixed.next, ih]

/-! ## NoDelay -/

/-- The `NoDelay` generator: a unit struct with no state. -/
structure NoDelay where
deriving DecidableEq

/-- `<NoDelay as Iterator>::next`: returns `Duration::default()` (zero). -/
def NoDelay.next (s : NoDelay) : Option (Duration × NoDelay) :=
  some (Duration.default, s)

/-! ## Range -/

/-- Model of rand 0.3's `distributions::Range<u64>` as built by
`Range::construct_range`: the inclusive lower bound, the width
`high - low`, and the rejection-sampling acceptance zone
`u64::MAX - u64::MAX % range`. -/
structure RandRange where
  low : ℕ
  range : ℕ
  accept_zone : ℕ
deriving DecidableEq

/-- rand 0.3's `Range::new(low, high)`: it `assert!`s `low < high`
(panicking otherwise, modelled as `none`) and then builds the sampling
parameters. -/
def RandRange.new (low high : ℕ) : Option RandRange :=
  if low < high then
    some { low := low, range := high - low,
           accept_zone := U64_MAX - U64_MAX % (high - low) }
  else
    none

/-- rand 0.3's `Range::ind_sample` rejection loop, fed by the pending raw
`u64` draws of the random source: the first draw below `accept_zone` is
accepted and turned into `low + v % range`; `none` means the provided
draws were exhausted without acceptance (the real loop would keep
drawing). Returns the accepted sample together with the unconsumed
draws. -/
def RandRange.ind_sample : RandRange → List ℕ → Option (ℕ × List ℕ)
  | _, [] => none
  | r, v :: vs =>
    if v < r.accept_zone then some (r.low + v % r.range, vs)
    else RandRange.ind_sample r vs

/-- The `Range` delay generator: the sampling range plus its thread-local
random source (modelled as the list of pending raw draws). -/
structure Range where
  range : RandRange
  rng : List ℕ
deriving DecidableEq

/-- `Range::from_millis(minimum, maximum)`: builds the underlying
`RandRange` (panicking — `none` — unless `minimum < maximum`) and grabs a
random source, here passed in as the pending draws. -/
def Range.from_millis (minimum maximum : ℕ) (rng : List ℕ) : Option Range :=
  (RandRange.new minimum maximum).map (fun r => { range := r, rng := rng })

/-- `<Range as Iterator>::next`: draws one sample from the stored range
and returns it as a millisecond duration; only the random source advances,
the bounds are untouched. -/
def Range.next (s : Range) : Option (Duration × Range) :=
  match s.range.ind_sample s.rng with
  | some (x, rest) => some (Duration.from_millis x, { range := s.range, rng := rest })
  | none => none

theorem RandRange.ind_sample_mem (r : RandRange) (hr : 0 < r.range) :
    ∀ (vs : List ℕ) (x : ℕ) (rest : List ℕ),
      r.ind_sample vs = some (x, rest) → r.low ≤ x ∧ x < r.low + r.range := by
  intro vs
  induction vs with
  | nil => intro x rest h; simp [RandRange.ind_sample] at h
  | cons v vs ih =>
    intro x rest h
    by_cases hv : v < r.accept_zone
    · simp only [RandRange.ind_sample, if_pos hv, Option.some.injEq, Prod.mk.injEq] at h
      refine ⟨by omega, ?_⟩
      have := Nat.mod_lt v hr
      omega
    · simp only [RandRange.ind_sample, if_neg hv] at h
      exact ih x rest h

theorem RandRange.ind_sample_isSome (r : RandRange) :
    ∀ vs : List ℕ, (∃ v ∈ vs, v < r.accept_zone) →
      (r.ind_sample vs).isSome = true := by
  intro vs
  induction vs with
  | nil =>
    rintro ⟨v, hv, _⟩
    simp at hv
  | cons v vs ih =>
    rintro ⟨w, hw, hwz⟩
    by_cases hv : v < r.accept_zone
    · simp [RandRange.ind_sample, hv]
    · simp only [RandRange.ind_sample, if_neg hv]
      rcases List.mem_cons.mp hw with h | h
      · exact absurd (h ▸ hwz) hv
      · exact ih ⟨w, h, hwz⟩

/-! ## jitter -/

/-- `jitter(duration)`: scales a duration by one uniform draw
`j ∈ [0, 1]` (rand 0.3's `Closed01<f64>`), applying the ceiling to the
scaled seconds and to the scaled subsecond nanoseconds independently and
rebuilding the duration with `Duration::new`. The `f64` draw and
arithmetic are idealised as exact rational arithmetic, with the draw `j`
made an explicit parameter; the `as u64`/`as u32` casts of the
non-negative ceilings are `Int.toNat`. -/
def jitter (duration : Duration) (j : ℚ) : Duration :=
  let secs := (Int.ceil ((duration.as_secs : ℚ) * j)).toNat
  let nanos := (Int.ceil ((duration.subsec_nanos : ℚ) * j)).toNat
  Duration.new secs nanos

theorem ceil_scale_le (a : ℕ) (j : ℚ) (h1 : j ≤ 1) :
    (Int.ceil ((a : ℚ) * j)).toNat ≤ a := by
  have hle : (a : ℚ) * j ≤ (a : ℚ) := by
    calc (a : ℚ) * j ≤ (a : ℚ) * 1 :=
          mul_le_mul_of_nonneg_left h1 (by positivity)
    _ = (a : ℚ) := mul_one _
  have hceil : Int.ceil ((a : ℚ) * j) ≤ (a : ℤ) := by
    rw [Int.ceil_le]
    exact_mod_cast hle
  omega

/-! ## Claim theorems -/

/-- C1: for every base `b`, the Exponential generator built by
`exponential_from_millis(b)` returns `b` milliseconds on its first pull,
the `n`-th pull (`n ≥ 1`) equals `b ^ n` milliseconds as long as `b ^ n`
has not overflowed `u64`, and each pull returns the current delay and then
multiplies the stored `current` by `base`. -/
theorem exponential_nth_pull_pow (b n : ℕ) (hn : 1 ≤ n) (hov : b ^ n < U64_MOD) :
    Exponential.pull (Exponential.from_millis b) 0 = Duration.from_millis b ∧
    Exponential.pull (Exponential.from_millis b) (n - 1) =
      Duration.from_millis (b ^ n) ∧
    Exponential.next ((Exponential.from_millis b).state_after (n - 1)) =
      some (Duration.from_millis (b ^ n),
        (Exponential.from_millis b).state_after n) := by
  obtain ⟨k, rfl⟩ : ∃ k, n = k + 1 := ⟨n - 1, by omega⟩
  simp only [Nat.add_sub_cancel]
  have hcur := Exponential.current_state_after b k hov
  refine ⟨rfl, ?_, ?_⟩
  · unfold Exponential.pull
    rw [hcur]
  · show Exponential.next _ =
      some (_, ((Exponential.from_millis b).state_after k).step)
    unfold Exponential.next
    rw [hcur]

theorem exponential_nth_pull_pow_witness :
    Exponential.pull (Exponential.from_millis 2) 0 = Duration.from_millis 2 ∧
    Exponential.pull (Exponential.from_millis 2) (4 - 1) =
      Duration.from_millis (2 ^ 4) ∧
    Exponential.next ((Exponential.from_millis 2).state_after (4 - 1)) =
      some (Duration.from_millis (2 ^ 4),
        (Exponential.from_millis 2).state_after 4) :=
  exponential_nth_pull_pow 2 4 (by decide) (by decide)

/-- C2: for every seed `s`, the Fibonacci generator built by
`fibonacci_from_millis(s)` produces `fib(n) * s` on its `n`-th pull
(the sequence `s, s, 2s, 3s, 5s, 8s, …`) as long as the sum computed
during that pull has not overflowed `u64`; each pull returns `curr` and
advances `(curr, next)` to `(next, curr + next)`; and for seed 10 the
first six pulls are exactly 10, 10, 20, 30, 50, 80 milliseconds. -/
theorem fibonacci_pull_fib_scaled (s n : ℕ) (hn : 1 ≤ n)
    (hov : Nat.fib (n + 1) * s < U64_MOD) :
    Fibonacci.pull (Fibonacci.from_millis s) (n - 1) =
      Duration.from_millis (Nat.fib n * s) ∧
    Fibonacci.iter_next ((Fibonacci.from_millis s).state_after (n - 1)) =
      some (Duration.from_millis (Nat.fib n * s),
        (Fibonacci.from_millis s).state_after n) ∧
    (List.range 6).map (Fibonacci.pull (Fibonacci.from_millis 10)) =
      List.map Duration.from_millis [10, 10, 20, 30, 50, 80] := by
  obtain ⟨k, rfl⟩ : ∃ k, n = k + 1 := ⟨n - 1, by omega⟩
  simp only [Nat.add_sub_cancel]
  have hst := Fibonacci.state_after_from_millis s k hov
  refine ⟨?_, ?_, by decide⟩
  · unfold Fibonacci.pull
    rw [hst]
  · show Fibonacci.iter_next _ =
      some (_, ((Fibonacci.from_millis s).state_after k).step)
    unfold Fibonacci.iter_next
    rw [hst]

theorem fibonacci_pull_fib_scaled_witness :
    Fibonacci.pull (Fibonacci.from_millis 10) (6 - 1) =
      Duration.from_millis (Nat.fib 6 * 10) ∧
    Fibonacci.iter_next ((Fibonacci.from_millis 10).state_after (6 - 1)) =
      some (Duration.from_millis (Nat.fib 6 * 10),
        (Fibonacci.from_millis 10).state_after 6) ∧
    (List.range 6).map (Fibonacci.pull (Fibonacci.from_millis 10)) =
      List.map Duration.from_millis [10, 10, 20, 30, 50, 80] :=
  fibonacci_pull_fib_scaled 10 6 (by decide) (by decide)

/-- C7: for every `m`, every pull of the Fixed generator built by
`fixed_from_millis(m)` returns exactly `m` milliseconds, for any number of
consecutive pulls, and no pull mutates the stored state. -/
theorem fixed_pull_constant (m : ℕ) : ∀ n : ℕ,
    Fixed.pull (Fixed.from_millis m) n = Duration.from_millis m ∧
    (Fixed.from_millis m).state_after n = Fixed.from_millis m ∧
    Fixed.next ((Fixed.from_millis m).state_after n) =
      some (Duration.from_millis m, Fixed.from_millis m) := by
  intro n
  have h := Fixed.state_after_eq (Fixed.from_millis m) n
  refine ⟨?_, h, ?_⟩
  · unfold Fixed.pull
    rw [h]
    rfl
  · rw [h]
    rfl

/-- C10: `exponential_from_millis(0)` is accepted (construction is total)
and the resulting generator returns the zero duration on every pull
forever: the state stays `(base, current) = (0, 0)` because `0 * 0 = 0`,
so it never changes and never overflows (the overflow-checked pull also
succeeds on every reachable state). -/
theorem exponential_base_zero_always_zero : ∀ k : ℕ,
    Exponential.pull (Exponential.from_millis 0) k = Duration.from_millis 0 ∧
    (Exponential.from_millis 0).state_after k = Exponential.from_millis 0 ∧
    Exponential.next_checked ((Exponential.from_millis 0).state_after k) =
      some (Duration.from_millis 0, Exponential.from_millis 0) := by
  intro k
  have h : ∀ n, (Exponential.from_millis 0).state_after n =
      Exponential.from_millis 0 := by
    intro n
    induction n with
    | zero => rfl
    | succ n ih =>
      simp only [Exponential.state_after]
      rw [ih]
      rfl
  refine ⟨?_, h k, ?_⟩
  · unfold Exponential.pull
    rw [h k]
    rfl
  · rw [h k]
    decide

/-- C3: for every duration `d` and every draw `j` in the closed interval
`[0, 1]`, `jitter d` is the duration built from
`new_seconds = ceil(seconds * j)` and `new_nanos = ceil(subsec_nanos * j)`
with the same single draw `j` used for both components, and the result
lies in `[0, d]`. -/
theorem jitter_formula_and_bounded (d : Duration) (j : ℚ)
    (_h0 : 0 ≤ j) (h1 : j ≤ 1) (hd : d.nanos < 1000000000) :
    jitter d j =
      Duration.new (Int.ceil ((d.as_secs : ℚ) * j)).toNat
        (Int.ceil ((d.subsec_nanos : ℚ) * j)).toNat ∧
    Duration.default.toNanos ≤ (jitter d j).toNanos ∧
    (jitter d j).toNanos ≤ d.toNanos := by
  refine ⟨rfl, Nat.zero_le _, ?_⟩
  have hs := ceil_scale_le d.secs j h1
  have hn := ceil_scale_le d.nanos j h1
  unfold jitter Duration.new Duration.toNanos Duration.as_secs Duration.subsec_nanos
  simp only
  set ns := (Int.ceil ((d.nanos : ℚ) * j)).toNat with hns
  set ss := (Int.ceil ((d.secs : ℚ) * j)).toNat with hss
  have hlt : ns < 1000000000 := lt_of_le_of_lt hn hd
  have hdiv : ns / 1000000000 = 0 := Nat.div_eq_of_lt hlt
  have hmod : ns % 1000000000 = ns := Nat.mod_eq_of_lt hlt
  rw [hdiv, hmod]
  omega

theorem jitter_formula_and_bounded_witness :
    jitter (Duration.mk 2 4) (1 / 2) =
      Duration.new (Int.ceil (((Duration.mk 2 4).as_secs : ℚ) * (1 / 2))).toNat
        (Int.ceil (((Duration.mk 2 4).subsec_nanos : ℚ) * (1 / 2))).toNat ∧
    Duration.default.toNanos ≤ (jitter (Duration.mk 2 4) (1 / 2)).toNanos ∧
    (jitter (Duration.mk 2 4) (1 / 2)).toNanos ≤ (Duration.mk 2 4).toNanos :=
  jitter_formula_and_bounded (Duration.mk 2 4) (1 / 2)
    (by norm_num) (by norm_num) (by norm_num)

/-- C4: for every Range generator built by
`range_from_millis(minimum, maximum)` with `minimum < maximum`, every
successful pull returns a duration whose millisecond value lies in
`[minimum, maximum)`, and the bounds fixed at construction are not
changed by the pull. -/
theorem range_pull_in_bounds (minimum maximum : ℕ) (rr : RandRange)
    (hlt : minimum < maximum) (hnew : RandRange.new minimum maximum = some rr)
    (vs : List ℕ) (d : Duration) (s2 : Range)
    (hnext : Range.next { range := rr, rng := vs } = some (d, s2)) :
    s2.range = rr ∧
    ∃ x, minimum ≤ x ∧ x < maximum ∧ d = Duration.from_millis x := by
  unfold RandRange.new at hnew
  rw [if_pos hlt] at hnew
  have hrr : rr.low = minimum ∧ rr.range = maximum - minimum := by
    cases hnew
    exact ⟨rfl, rfl⟩
  unfold Range.next at hnext
  rcases hsample : rr.ind_sample vs with _ | ⟨x, rest⟩
  · rw [hsample] at hnext
    cases hnext
  · rw [hsample] at hnext
    have hb := RandRange.ind_sample_mem rr (by omega) vs x rest hsample
    cases hnext
    exact ⟨rfl, x, by omega, by omega, rfl⟩

theorem range_pull_in_bounds_witness :
    (Range.mk (RandRange.mk 5 10 18446744073709551610) []).range =
      RandRange.mk 5 10 18446744073709551610 ∧
    ∃ x, 5 ≤ x ∧ x < 15 ∧ Duration.from_millis 8 = Duration.from_millis x :=
  range_pull_in_bounds 5 15 (RandRange.mk 5 10 18446744073709551610)
    (by decide) (by decide) [3] (Duration.from_millis 8)
    (Range.mk (RandRange.mk 5 10 18446744073709551610) []) (by decide)

/-- C5: constructing a Range with `minimum > maximum` fails fast at
construction: rand 0.3's `Range::new` asserts `low < high` and panics
(modelled as `none`), so the generator is never built and no reversed
range is silently produced. -/
theorem range_min_gt_max_fails (minimum maximum : ℕ) (rng : List ℕ)
    (h : maximum < minimum) :
    Range.from_millis minimum maximum rng = none := by
  unfold Range.from_millis RandRange.new
  rw [if_neg (by omega)]
  rfl

theorem range_min_gt_max_fails_witness :
    Range.from_millis 15 5 [] = none :=
  range_min_gt_max_fails 15 5 [] (by decide)

/-- C9: constructing a Range with `minimum = maximum` panics at
construction (rand 0.3's `Range::new` asserts a strictly smaller lower
bound), while any `minimum < maximum` is accepted — the public interface
effectively demands `minimum < maximum`, strictly stronger than the
spec's `minimum ≤ maximum` precondition. -/
theorem range_min_eq_max_panics :
    (∀ (m : ℕ) (rng : List ℕ), Range.from_millis m m rng = none) ∧
    (∀ (minimum maximum : ℕ) (rng : List ℕ), minimum < maximum →
      (Range.from_millis minimum maximum rng).isSome = true) := by
  constructor
  · intro m rng
    unfold Range.from_millis RandRange.new
    rw [if_neg (lt_irrefl m)]
    rfl
  · intro mn mx rng h
    unfold Range.from_millis RandRange.new
    rw [if_pos h]
    rfl

theorem range_min_eq_max_panics_witness :
    Range.from_millis 5 5 [] = none ∧
    (Range.from_millis 5 6 []).isSome = true :=
  ⟨range_min_eq_max_panics.1 5 [], range_min_eq_max_panics.2 5 6 [] (by decide)⟩

/-- C6 counterexample: the claim that pulling never fails is false under
the debug-assertion (overflow-checked) semantics Rust gives the unchecked
`self.current * self.base`: the very first pull of
`exponential_from_millis(2^32)` computes `2^32 * 2^32 = 2^64`, which
overflows `u64` and panics (modelled as `none`). -/
theorem exponential_overflow_pull_panics :
    Exponential.next_checked (Exponential.from_millis (2 ^ 32)) = none := by
  unfold Exponential.next_checked Exponential.from_millis
  rw [if_neg (by decide)]

/-- C6 amended: the overflow behavior of `current * base` (Exponential)
and `curr + next` (Fibonacci) is build-profile-dependent, not an explicit
policy of the code: with overflow checks disabled (release default) the
arithmetic wraps deterministically modulo `2^64` and pulling never fails,
while with overflow checks enabled (debug default) the overflowing pull
panics. -/
theorem overflow_wraps_in_release_panics_in_debug :
    (∀ s : Exponential, Exponential.next s =
      some (Duration.from_millis s.current,
        { base := s.base, current := s.current * s.base % U64_MOD })) ∧
    (∀ s : Fibonacci, Fibonacci.iter_next s =
      some (Duration.from_millis s.curr,
        { curr := s.next, next := (s.curr + s.next) % U64_MOD })) ∧
    (∀ s : Exponential, U64_MOD ≤ s.current * s.base →
      Exponential.next_checked s = none) ∧
    (∀ s : Fibonacci, U64_MOD ≤ s.curr + s.next →
      Fibonacci.iter_next_checked s = none) := by
  refine ⟨fun s => rfl, fun s => rfl, ?_, ?_⟩
  · intro s h
    unfold Exponential.next_checked
    rw [if_neg (by omega)]
  · intro s h
    unfold Fibonacci.iter_next_checked
    rw [if_neg (by omega)]

theorem overflow_wraps_in_release_panics_in_debug_witness :
    Fibonacci.iter_next_checked (Fibonacci.mk 18446744073709551615 1) = none :=
  overflow_wraps_in_release_panics_in_debug.2.2.2
    (Fibonacci.mk 18446744073709551615 1) (by decide)

/-- C8: every generator's produce-next operation returns `some` duration —
it never signals end of sequence; for the four deterministic generators it
succeeds on every reachable state unconditionally, and for Range it
succeeds whenever the random source yields a draw inside the acceptance
zone (the rejection loop otherwise keeps drawing and never returns
`None`). -/
theorem generators_always_produce :
    (∀ s : Exponential, ∃ d s2, Exponential.next s = some (d, s2)) ∧
    (∀ s : Fibonacci, ∃ d s2, Fibonacci.iter_next s = some (d, s2)) ∧
    (∀ s : Fixed, ∃ d s2, Fixed.next s = some (d, s2)) ∧
    (∀ s : NoDelay, ∃ d s2, NoDelay.next s = some (d, s2)) ∧
    (∀ (rr : RandRange) (vs : List ℕ), (∃ v ∈ vs, v < rr.accept_zone) →
      ∃ d s2, Range.next { range := rr, rng := vs } = some (d, s2)) := by
  refine ⟨fun s => ⟨_, _, rfl⟩, fun s => ⟨_, _, rfl⟩, fun s => ⟨_, _, rfl⟩,
    fun s => ⟨_, _, rfl⟩, ?_⟩
  intro rr vs hacc
  have hsome := RandRange.ind_sample_isSome rr vs hacc
  rcases hsample : rr.ind_sample vs with _ | ⟨x, rest⟩
  · rw [hsample] at hsome
    cases hsome
  · exact ⟨Duration.from_millis x, { range := rr, rng := rest }, by
      unfold Range.next
      rw [hsample]⟩

theorem generators_always_produce_witness :
    ∃ d s2, Range.next
      (Range.mk (RandRange.mk 5 10 18446744073709551610) [3]) = some (d, s2) :=
  generators_always_produce.2.2.2.2 (RandRange.mk 5 10 18446744073709551610)
    [3] ⟨3, by decide, by decide⟩
